import Mathlib

/-!
Verification development for the `wordle` repository (`src/wordle.py`).

Words and marks are modelled as `List Char` (Python strings).  Python sets
become `Finset`s, Python dicts become association lists or functions with an
explicit key list, and code that can raise an exception returns an `Option`
or `Except` value.  Every definition below is translated from the source
file; the comment above each one names the source symbol and lines.
-/

namespace Wordle

/-- Source: `WORD_LENGTH = 5` (wordle.py line 14). -/
def WORD_LENGTH : Nat := 5

/-- Source: `CHARS_SET = set("abcdefghijklmnopqrstuvwxyz")` (line 17), as a list. -/
def CHARS_LIST : List Char := "abcdefghijklmnopqrstuvwxyz".toList

/-- Source: `CHARS_SET` (line 17), as a `Finset`. -/
def CHARS_SET : Finset Char := CHARS_LIST.toFinset

/-- Source: `NUMCHARS_SET = set(range(WORD_LENGTH+1))` (line 18). -/
def NUMCHARS_SET : Finset Nat := Finset.range (WORD_LENGTH + 1)

/-- Source: `RESULTS_SET = set("GYN")` (line 19), as a list (generation order
of `product(*["GYN"]*5)` on line 214 follows the string "GYN"). -/
def RESULTS_LIST : List Char := ['G', 'Y', 'N']

/-- Source: line 212, the preliminary mark inside `mark_guess`:
`''.join('G' if g==a else ('N' if g not in answer else '_') for g, a in zip(guess, answer))`. -/
def prelim_mark (guess answer : List Char) : List Char :=
  (guess.zip answer).map (fun ga => if ga.1 = ga.2 then 'G' else if ga.1 ∉ answer then 'N' else '_')

/-- Source: line 214, `marks = {''.join(x) for x in product(*["GYN"]*5)}`.
`markCombos n` enumerates every length-`n` string over G/Y/N (first position
varying slowest, as `itertools.product` does). -/
def markCombos : Nat → List (List Char)
  | 0 => [[]]
  | n + 1 => RESULTS_LIST.flatMap (fun c => (markCombos n).map (fun t => c :: t))

/-- Source: line 216, `prefilt_marks = {mm for mm in marks if all((p=='_' and m!='G') or p==m for p, m in zip(prelim_mark, mm))}`. -/
def prefilt_marks (guess answer : List Char) : List (List Char) :=
  (markCombos WORD_LENGTH).filter
    (fun mm => ((prelim_mark guess answer).zip mm).all
      (fun pm => (pm.1 == '_' && pm.2 != 'G') || pm.1 == pm.2))

/-- Source: line 220, `overlaps = set(guess) & set(answer)`. -/
def overlaps (guess answer : List Char) : List Char :=
  guess.dedup.filter (fun c => decide (c ∈ answer))

/-- Source: line 221, the inner sum
`sum(n for c,n in Counter(mm for cc, mm in zip(guess,mark) if cc==char).items() if c in 'YG')`:
the number of positions where the guess has `c` and the mark is Y or G. -/
def yg_count (guess mark : List Char) (c : Char) : Nat :=
  (guess.zip mark).countP (fun p => p.1 == c && (p.2 == 'Y' || p.2 == 'G'))

/-- Source: line 221, `only_options = [mark for mark in prefilt_marks if all(min(Cg[char],Ca[char])==... for char in overlaps)]`
with `Cg = Counter(guess)`, `Ca = Counter(answer)` (lines 218-219). -/
def only_options (guess answer : List Char) : List (List Char) :=
  (prefilt_marks guess answer).filter
    (fun mark => (overlaps guess answer).all
      (fun c => min (guess.count c) (answer.count c) == yg_count guess mark c))

/-- Source: `mark_guess` (lines 209-226).  The assert on line 223 demands
`len(only_options) in (1,2)`; a failing assert is modelled as `none`.  Line
225 keeps the first option (Python iterates a set here, so which of two
options is first is unspecified; this embedding fixes the `product`
enumeration order). -/
def mark_guess (guess answer : List Char) : Option (List Char) :=
  let opts := only_options guess answer
  if opts.length = 1 ∨ opts.length = 2 then opts.head? else none

/-- Source: `calc_possible_counts` (lines 277-279):
`n_min = sum((G,Y)); return NUMCHARS_SET.difference(range(n_min)) if (N==0) else {n_min}`. -/
def calc_possible_counts (G Y N : Nat) : Finset Nat :=
  if N = 0 then NUMCHARS_SET \ Finset.range (G + Y) else {G + Y}

/-- Source: `calc_allowed_chars` (lines 281-287). -/
def calc_allowed_chars (c : Char) (G Y N : Nat) : Finset Char :=
  if 0 < G then {c} else if 0 < Y + N then CHARS_SET \ {c} else CHARS_SET

/-- Number of positions where the guess has `c` and the mark is `sym`: one
cell of the `value_counts().unstack()` table over `['char','guess','mark']`
built on lines 258-263 (one row of the tabulated guess results per position,
line 245). -/
def charMarkCount (guess mark : List Char) (c sym : Char) : Nat :=
  (guess.zip mark).countP (fun p => p.1 == c && p.2 == sym)

/-- Keys of the `charcounts` dict (lines 293-298): every character occurring
in some guessed word. -/
def charKeys (results : List (List Char × List Char)) : List Char :=
  (results.map Prod.fst).flatten.dedup

/-- Source: the `charcounts` value for character `c` (lines 293-298):
`fullset.intersection(*x.to_list())` over the per-(char, guess) rows, i.e.
`NUMCHARS_SET ∩ ⋂ calc_possible_counts(G,Y,N)` over the guesses containing `c`. -/
def charcountSet (results : List (List Char × List Char)) (c : Char) : Finset Nat :=
  ((results.filter (fun r => decide (c ∈ r.1))).map
    (fun r => calc_possible_counts (charMarkCount r.1 r.2 c 'G')
      (charMarkCount r.1 r.2 c 'Y') (charMarkCount r.1 r.2 c 'N'))).foldl (· ∩ ·) NUMCHARS_SET

/-- Keys of the `position_chars` dict (lines 300-305): every position index
of some guessed word. -/
def posKeys (results : List (List Char × List Char)) : List Nat :=
  (results.map (fun r => List.range r.1.length)).flatten.dedup

/-- The characters appearing at position `i` in some guessed word: the rows
of the `['pos','char','mark']` table (lines 300-305) for position `i`. -/
def charsAtPos (results : List (List Char × List Char)) (i : Nat) : List Char :=
  (results.filterMap (fun r => r.1.get? i)).dedup

/-- Number of guesses whose character at position `i` is `c` with mark `sym`:
one cell of the `value_counts().unstack()` table over `['pos','char','mark']`
(lines 300-305); counts aggregate across guesses. -/
def posMarkCount (results : List (List Char × List Char)) (i : Nat) (c sym : Char) : Nat :=
  results.countP (fun r => r.1.get? i == some c && r.2.get? i == some sym)

/-- Source: the `position_chars` value for position `i` (lines 300-305):
`CHARS_SET ∩ ⋂ calc_allowed_chars(char,G,Y,N)` over the characters at `i`. -/
def positionCharsSet (results : List (List Char × List Char)) (i : Nat) : Finset Char :=
  ((charsAtPos results i).map
    (fun c => calc_allowed_chars c (posMarkCount results i c 'G')
      (posMarkCount results i c 'Y') (posMarkCount results i c 'N'))).foldl (· ∩ ·) CHARS_SET

/-- The `charcounts` dict (lines 293-298) as an association list. -/
def calc_charcounts (results : List (List Char × List Char)) : List (Char × Finset Nat) :=
  (charKeys results).map (fun c => (c, charcountSet results c))

/-- The `position_chars` dict (lines 300-305) as an association list. -/
def calc_position_chars (results : List (List Char × List Char)) : List (Nat × Finset Char) :=
  (posKeys results).map (fun i => (i, positionCharsSet results i))

/-- Source: `word_allowed` (lines 272-275):
`check1 = all(Counter(w)[c] in n for c, n in charcounts.items())`,
`check2 = all(w[pos] in ok for pos, ok in position_chars.items())`.
`w[pos]` for `pos ≥ len(w)` raises IndexError in Python; every use in the
claims has length-5 words and positions 0..4, where the `none` branch below
is unreachable. -/
def word_allowed (w : List Char) (charcounts : List (Char × Finset Nat))
    (position_chars : List (Nat × Finset Char)) : Bool :=
  charcounts.all (fun p => decide (w.count p.1 ∈ p.2)) &&
  position_chars.all (fun p =>
    match w.get? p.1 with
    | some ch => decide (ch ∈ p.2)
    | none => false)

/-- The per-entry part of the asserts guarding `get_allowed_words` (lines
234-235 and 242-244): guess over the alphabet, mark over G/Y/N, both of
length `WORD_LENGTH`. -/
def entry_ok (r : List Char × List Char) : Bool :=
  r.1.all (fun c => decide (c ∈ CHARS_LIST)) && r.2.all (fun c => decide (c ∈ RESULTS_LIST)) &&
  r.1.length == WORD_LENGTH && r.2.length == WORD_LENGTH

/-- The asserts guarding `get_allowed_words`; `pd.concat` on line 249 also
raises when `guess_results` is empty. -/
def guess_results_ok (results : List (List Char × List Char)) : Bool :=
  !results.isEmpty && results.all entry_ok

/-- Source: `get_allowed_words` (lines 229-308).  A failing assert (or the
`pd.concat` of an empty dict) is modelled as `none`. -/
def get_allowed_words (words : Finset (List Char)) (results : List (List Char × List Char)) :
    Option (Finset (List Char)) :=
  if guess_results_ok results then
    some (words.filter
      (fun w => word_allowed w (calc_charcounts results) (calc_position_chars results) = true))
  else none

/-- Source: line 202, `results = {**results, **{guess: mark}}`: dict update,
replacing in place when the key exists, appending otherwise. -/
def updateResults (results : List (List Char × List Char)) (g m : List Char) :
    List (List Char × List Char) :=
  if results.any (fun r => r.1 == g) then results.map (fun r => if r.1 == g then (g, m) else r)
  else results ++ [(g, m)]

/-- Outcomes of a simulation run that the Python code reaches by raising:
`markFailed` is the assert in `mark_guess` (line 223), `filterFailed` the
asserts in `get_allowed_words`.  `outOfFuel` is an artifact of the fuelled
embedding of the unbounded `while` loop; with enough fuel it never occurs. -/
inductive SimError where
  | markFailed : SimError
  | filterFailed : SimError
  | outOfFuel : SimError
deriving DecidableEq

/-- Source: the `while guess:` loop of `simulate_wordle` (lines 197-206),
with explicit fuel.  `none` and the empty word are the falsy values of the
loop condition; each iteration computes the mark, updates `results`, filters
the word set, removes the guess, appends to `datalist` and selects the next
guess from the remaining words (or `None` when none remain). -/
def simulate_go (answer : List Char) (sel : Finset (List Char) → List Char) :
    Nat → Option (List Char) → Finset (List Char) → List (List Char × List Char) →
    List (List Char × List Char × Finset (List Char)) →
    Except SimError (List (List Char × List Char × Finset (List Char)))
  | _, none, _, _, datalist => Except.ok datalist
  | 0, some guess, _, _, datalist =>
    if guess = [] then Except.ok datalist else Except.error SimError.outOfFuel
  | fuel + 1, some guess, words, results, datalist =>
    if guess = [] then Except.ok datalist
    else
      match mark_guess guess answer with
      | none => Except.error SimError.markFailed
      | some mark =>
        let results2 := updateResults results guess mark
        match get_allowed_words words results2 with
        | none => Except.error SimError.filterFailed
        | some filtered =>
          let words2 := filtered \ {guess}
          let datalist2 := datalist ++ [(guess, mark, words2)]
          simulate_go answer sel fuel
            (if words2.Nonempty then some (sel words2) else none) words2 results2 datalist2

/-- Source: `simulate_wordle` (lines 197-206).  The fuel `words.card + 1`
bounds the iteration count of the source's `while` loop: the first iteration
need not shrink the word set, every later one removes its guess from it. -/
def simulate_wordle (guess answer : List Char) (words : Finset (List Char))
    (sel : Finset (List Char) → List Char) :
    Except SimError (List (List Char × List Char × Finset (List Char))) :=
  simulate_go answer sel (words.card + 1) (some guess) words [] []

/-- A concrete guess selector used for witnesses: the lexicographically
greatest element of a nonempty set (an instance of the spec's recommended
deterministic tie-break), the empty word otherwise. -/
def selMax (s : Finset (List Char)) : List Char :=
  if h : s.Nonempty then s.max' h else []

end Wordle

deriving instance DecidableEq for Except

namespace Wordle

/-! ### Generic helper lemmas -/

/-- Membership in a left fold of intersections. -/
theorem mem_foldl_inter {α : Type} [DecidableEq α] (L : List (Finset α)) (init : Finset α)
    (x : α) : x ∈ L.foldl (· ∩ ·) init ↔ x ∈ init ∧ ∀ s ∈ L, x ∈ s := by
  induction L generalizing init with
  | nil => simp
  | cons s L ih =>
    rw [List.foldl_cons, ih]
    simp only [Finset.mem_inter, List.mem_cons]
    constructor
    · rintro ⟨⟨h1, h2⟩, h3⟩
      exact ⟨h1, by rintro t (rfl | ht); exacts [h2, h3 t ht]⟩
    · rintro ⟨h1, h2⟩
      exact ⟨⟨h1, h2 s (Or.inl rfl)⟩, fun t ht => h2 t (Or.inr ht)⟩

/-- Index-wise characterisation of `List.all` over a `zip`. -/
theorem all_zip_iff {α β : Type} (l₁ : List α) (l₂ : List β) (p : α × β → Bool) :
    ((l₁.zip l₂).all p = true) ↔
      ∀ i a b, l₁.get? i = some a → l₂.get? i = some b → p (a, b) = true := by
  rw [List.all_eq_true]
  constructor
  · intro h i a b h₁ h₂
    exact h (a, b) (List.mem_iff_get?.2 ⟨i, (List.get?_zip_eq_some _ _ _ _).2 ⟨h₁, h₂⟩⟩)
  · intro h pr hpr
    obtain ⟨i, hi⟩ := List.mem_iff_get?.1 hpr
    obtain ⟨h₁, h₂⟩ := (List.get?_zip_eq_some _ _ _ _).1 hi
    exact h i pr.1 pr.2 h₁ h₂

/-- `countP` of a disjunction of two element-wise disjoint predicates. -/
theorem countP_or_disjoint {α : Type} (l : List α) (p q : α → Bool)
    (h : ∀ a ∈ l, ¬(p a = true ∧ q a = true)) :
    l.countP (fun a => p a || q a) = l.countP p + l.countP q := by
  induction l with
  | nil => simp
  | cons a l ih =>
    have ha := h a (List.mem_cons_self a l)
    have hl : ∀ b ∈ l, ¬(p b = true ∧ q b = true) := fun b hb => h b (List.mem_cons_of_mem a hb)
    by_cases hp : p a = true
    · have hq : q a = false := by
        cases hq2 : q a
        · rfl
        · exact absurd ⟨hp, hq2⟩ ha
      simp [List.countP_cons, hp, hq, ih hl]
      omega
    · have hp2 : p a = false := by simpa using hp
      by_cases hq : q a = true
      · simp [List.countP_cons, hp2, hq, ih hl]
        omega
      · simp [List.countP_cons, hp2, hq, ih hl]

/-- Counting pairs of a zip by a predicate on the first component is bounded
by counting the first list. -/
theorem countP_zip_le_left {α β : Type} (l₁ : List α) (l₂ : List β) (q : α → Bool) :
    (l₁.zip l₂).countP (fun pr => q pr.1) ≤ l₁.countP q := by
  induction l₁ generalizing l₂ with
  | nil => simp
  | cons a l ih =>
    cases l₂ with
    | nil => simp
    | cons b l₂ =>
      rw [List.zip_cons_cons, List.countP_cons, List.countP_cons]
      exact Nat.add_le_add (ih l₂) (le_refl _)

/-- The head of a list, when it exists, is a member. -/
theorem head?_mem_self {α : Type} {l : List α} {a : α} (h : l.head? = some a) : a ∈ l :=
  List.mem_of_mem_head? h

/-! ### C7: idempotence of candidate filtering -/

/-- C7: candidate filtering is idempotent: for every candidate set and every
fixed accumulated guess results (hence fixed character-count and position
constraints), filtering the already-filtered set with the same constraints
returns it unchanged. -/
theorem claim_C7_filter_idempotent
    (words : Finset (List Char)) (results : List (List Char × List Char))
    (S : Finset (List Char)) (h : get_allowed_words words results = some S) :
    get_allowed_words S results = some S := by
  unfold get_allowed_words at h ⊢
  by_cases hok : guess_results_ok results = true
  · simp only [hok, if_true, Option.some.injEq] at h ⊢
    subst h
    refine Finset.ext fun w => ?_
    exact ⟨fun hw => (Finset.mem_filter.1 hw).1,
           fun hw => Finset.mem_filter.2 ⟨hw, (Finset.mem_filter.1 hw).2⟩⟩
  · simp [hok] at h

/-- Witness for C7 at a concrete input: filtering `{crate, arose}` on the
result of guessing "arose" against answer "crate" yields `{crate}`, and
filtering again yields the same set. -/
theorem claim_C7_witness :
    get_allowed_words {"crate".toList, "arose".toList}
        [("arose".toList, ['Y', 'G', 'N', 'N', 'G'])] = some {"crate".toList} ∧
    get_allowed_words {"crate".toList}
        [("arose".toList, ['Y', 'G', 'N', 'N', 'G'])] = some {"crate".toList} :=
  ⟨by decide,
   claim_C7_filter_idempotent {"crate".toList, "arose".toList} _ _ (by decide)⟩

/-! ### C5 and C6: the derived constraints of a single guess -/

/-- The char-count constraint set derived from a single guess result. -/
theorem charcountSet_singleton (g m : List Char) (c : Char) (hc : c ∈ g) :
    charcountSet [(g, m)] c =
      NUMCHARS_SET ∩ calc_possible_counts (charMarkCount g m c 'G')
        (charMarkCount g m c 'Y') (charMarkCount g m c 'N') := by
  unfold charcountSet
  simp [List.filter_cons, hc]

/-- Confirmed plus denied occurrences of `c` never exceed the mark length. -/
theorem charMarkCount_G_add_Y_le (g m : List Char) (c : Char) :
    charMarkCount g m c 'G' + charMarkCount g m c 'Y' ≤ m.length := by
  have hdisj : ∀ pr ∈ g.zip m,
      ¬((pr.1 == c && pr.2 == 'G') = true ∧ (pr.1 == c && pr.2 == 'Y') = true) := by
    intro pr _ hboth
    simp only [Bool.and_eq_true, beq_iff_eq] at hboth
    exact absurd (hboth.1.2.symm.trans hboth.2.2) (by decide)
  have hsum := countP_or_disjoint (g.zip m) _ _ hdisj
  calc charMarkCount g m c 'G' + charMarkCount g m c 'Y'
      = (g.zip m).countP
          (fun pr => (pr.1 == c && pr.2 == 'G') || (pr.1 == c && pr.2 == 'Y')) := hsum.symm
    _ ≤ (g.zip m).length := List.countP_le_length _
    _ ≤ m.length := by rw [List.length_zip]; omega

/-- C5: for a character `c` of a guess, with confirmed = number of positions
of `c` marked Correct or Present and denied = number of positions of `c`
marked Absent, the derived allowed-count set for `c` is exactly
`{confirmed}` when denied > 0 and exactly the interval `[confirmed, 5]`
when denied = 0. -/
theorem claim_C5_count_constraint (g m : List Char) (c : Char)
    (hm : m.length = WORD_LENGTH) (hc : c ∈ g) :
    (0 < charMarkCount g m c 'N' →
      charcountSet [(g, m)] c =
        {charMarkCount g m c 'G' + charMarkCount g m c 'Y'}) ∧
    (charMarkCount g m c 'N' = 0 →
      charcountSet [(g, m)] c =
        Finset.Icc (charMarkCount g m c 'G' + charMarkCount g m c 'Y') WORD_LENGTH) := by
  have hb : charMarkCount g m c 'G' + charMarkCount g m c 'Y' ≤ WORD_LENGTH := by
    have := charMarkCount_G_add_Y_le g m c
    omega
  rw [charcountSet_singleton g m c hc]
  constructor
  · intro hN
    rw [calc_possible_counts, if_neg (by omega)]
    refine Finset.ext fun x => ?_
    simp only [Finset.mem_inter, Finset.mem_singleton, NUMCHARS_SET, Finset.mem_range,
      WORD_LENGTH] at *
    omega
  · intro hN
    rw [calc_possible_counts, if_pos hN]
    refine Finset.ext fun x => ?_
    simp only [Finset.mem_inter, Finset.mem_sdiff, Finset.mem_range, Finset.mem_Icc,
      NUMCHARS_SET, WORD_LENGTH] at *
    omega

/-- Witness for C5: guessing "arose" against "crate" gives mark "YGNNG";
for c = 'o' (denied = 1) the count set is `{0}`, for c = 'a' (denied = 0)
it is `[1, 5]`. -/
theorem claim_C5_witness :
    (['Y', 'G', 'N', 'N', 'G'] : List Char).length = WORD_LENGTH ∧ 'o' ∈ "arose".toList ∧
    charcountSet [("arose".toList, ['Y', 'G', 'N', 'N', 'G'])] 'o' = {0} :=
  ⟨by decide, by decide,
   by
    have h := (claim_C5_count_constraint "arose".toList ['Y', 'G', 'N', 'N', 'G'] 'o'
      (by decide) (by decide)).1 (by decide)
    simpa using h⟩

/-- The position constraint set derived from a single guess result, at a
position where the guess reads `c` and the mark reads `mk`. -/
theorem positionCharsSet_singleton (g m : List Char) (i : Nat) (c mk : Char)
    (hg : g.get? i = some c) (hm : m.get? i = some mk) :
    positionCharsSet [(g, m)] i =
      CHARS_SET ∩ calc_allowed_chars c (if mk = 'G' then 1 else 0)
        (if mk = 'Y' then 1 else 0) (if mk = 'N' then 1 else 0) := by
  have hg' : g[i]? = some c := by rw [← List.get?_eq_getElem?]; exact hg
  have hm' : m[i]? = some mk := by rw [← List.get?_eq_getElem?]; exact hm
  have hchars : charsAtPos [(g, m)] i = [c] := by
    simp [charsAtPos, hg']
  have hcount : ∀ sym, posMarkCount [(g, m)] i c sym = if mk = sym then 1 else 0 := by
    intro sym
    simp only [posMarkCount, List.countP_cons, List.countP_nil, hg', hm']
    by_cases h : mk = sym
    · subst h
      simp [hg', hm']
    · have hne : (m.get? i == some sym) = false := by
        rw [hm]
        simp [h]
      simp only [if_neg h]
      simp only [List.get?_eq_getElem?] at hne
      simp [hne]
  unfold positionCharsSet
  rw [hchars]
  simp [hcount]

/-- C6: for a single (guess, mark) pair and a position `i`: a Correct mark
makes the allowed set at `i` exactly `{guess[i]}`; a Present or Absent mark
excludes `guess[i]` at `i`, the allowed set being the alphabet minus
`{guess[i]}`. -/
theorem claim_C6_position_constraint (g m : List Char) (i : Nat) (c mk : Char)
    (hg : g.get? i = some c) (hm : m.get? i = some mk) :
    (mk = 'G' → c ∈ CHARS_LIST → positionCharsSet [(g, m)] i = {c}) ∧
    ((mk = 'Y' ∨ mk = 'N') → positionCharsSet [(g, m)] i = CHARS_SET \ {c}) := by
  rw [positionCharsSet_singleton g m i c mk hg hm]
  constructor
  · rintro rfl hcin
    rw [if_pos rfl, if_neg (by decide : ¬('G' : Char) = 'Y'),
      if_neg (by decide : ¬('G' : Char) = 'N')]
    rw [calc_allowed_chars, if_pos (by omega : (0 : Nat) < 1)]
    refine Finset.ext fun x => ?_
    simp only [Finset.mem_inter, Finset.mem_singleton]
    constructor
    · exact fun h => h.2
    · rintro rfl
      exact ⟨by simpa [CHARS_SET] using hcin, rfl⟩
  · rintro (rfl | rfl)
    · rw [if_neg (by decide : ¬('Y' : Char) = 'G'), if_pos rfl,
        if_neg (by decide : ¬('Y' : Char) = 'N')]
      rw [calc_allowed_chars, if_neg (by omega : ¬(0 : Nat) < 0),
        if_pos (by omega : (0 : Nat) < 1 + 0)]
      refine Finset.ext fun x => ?_
      simp only [Finset.mem_inter, Finset.mem_sdiff, Finset.mem_singleton]
      tauto
    · rw [if_neg (by decide : ¬('N' : Char) = 'G'), if_neg (by decide : ¬('N' : Char) = 'Y'),
        if_pos rfl]
      rw [calc_allowed_chars, if_neg (by omega : ¬(0 : Nat) < 0),
        if_pos (by omega : (0 : Nat) < 0 + 1)]
      refine Finset.ext fun x => ?_
      simp only [Finset.mem_inter, Finset.mem_sdiff, Finset.mem_singleton]
      tauto

/-- Witness for C6: in "arose" vs "crate" (mark "YGNNG"), position 1 holds
'r' marked Correct, so only 'r' is allowed there; position 0 holds 'a'
marked Present, so everything but 'a' is allowed there. -/
theorem claim_C6_witness :
    ("arose".toList.get? 1 = some 'r') ∧ ((['Y', 'G', 'N', 'N', 'G'] : List Char).get? 1 = some 'G') ∧
    positionCharsSet [("arose".toList, ['Y', 'G', 'N', 'N', 'G'])] 1 = {'r'} :=
  ⟨by decide, by decide,
   (claim_C6_position_constraint "arose".toList ['Y', 'G', 'N', 'N', 'G'] 1 'r' 'G'
      (by decide) (by decide)).1 rfl (by decide)⟩

/-! ### C2: the end-to-end scenario guess "arose", answer "crate" -/

/-- Counterexample for C2: the mark computed for guess "arose" against
answer "crate" is "YGNNG" ('r' and 'e' sit in matching positions and are
Correct), not the claimed "YNYNN". -/
theorem claim_C2_counterexample :
    mark_guess "arose".toList "crate".toList ≠ some ['Y', 'N', 'Y', 'N', 'N'] ∧
    mark_guess "arose".toList "crate".toList = some ['Y', 'G', 'N', 'N', 'G'] := by decide

/-- C2 (amended): the mark for guess "arose" against answer "crate" is
"YGNNG" = [Present, Correct, Absent, Absent, Correct], and the candidate
set resulting from filtering on this mark excludes "arose" and every word
containing 'o' or 's', while containing "crate". -/
theorem claim_C2_amended :
    mark_guess "arose".toList "crate".toList = some ['Y', 'G', 'N', 'N', 'G'] ∧
    ∀ (words S : Finset (List Char)),
      get_allowed_words words [("arose".toList, ['Y', 'G', 'N', 'N', 'G'])] = some S →
      ("crate".toList ∈ words → "crate".toList ∈ S) ∧
      "arose".toList ∉ S ∧
      ∀ w ∈ words, ('o' ∈ w ∨ 's' ∈ w) → w ∉ S := by
  refine ⟨by decide, ?_⟩
  intro words S hS
  rw [get_allowed_words, if_pos (by decide), Option.some.injEq] at hS
  subst hS
  refine ⟨?_, ?_, ?_⟩
  · intro hw
    exact Finset.mem_filter.2 ⟨hw, by decide⟩
  · intro hmem
    exact absurd (Finset.mem_filter.1 hmem).2 (by decide)
  · intro w _ hos hmem
    have hall := (Finset.mem_filter.1 hmem).2
    unfold word_allowed at hall
    have hcounts := (Bool.and_eq_true _ _ ▸ hall).1
    have ho : (('o' : Char), ({0} : Finset Nat)) ∈
        calc_charcounts [("arose".toList, ['Y', 'G', 'N', 'N', 'G'])] := by decide
    have hs : (('s' : Char), ({0} : Finset Nat)) ∈
        calc_charcounts [("arose".toList, ['Y', 'G', 'N', 'N', 'G'])] := by decide
    have ho2 := List.all_eq_true.1 hcounts _ ho
    have hs2 := List.all_eq_true.1 hcounts _ hs
    simp only [decide_eq_true_eq, Finset.mem_singleton] at ho2 hs2
    rcases hos with h | h
    · exact absurd ho2 (Nat.pos_iff_ne_zero.1 (List.count_pos_iff.2 h))
    · exact absurd hs2 (Nat.pos_iff_ne_zero.1 (List.count_pos_iff.2 h))

/-- Witness for C2 at a concrete candidate set `{crate, arose}`. -/
theorem claim_C2_witness :
    "crate".toList ∈ ({"crate".toList} : Finset (List Char)) ∧
    "arose".toList ∉ ({"crate".toList} : Finset (List Char)) :=
  have h := claim_C2_amended.2 {"crate".toList, "arose".toList} {"crate".toList} (by decide)
  ⟨h.1 (by decide), h.2.1⟩

/-! ### C3: duplicate letters in guess "sheep" against answer "spent" -/

/-- Counterexample for C3: the mark for guess "sheep" against answer
"spent" is "GNGNY"; neither of the two 'e'-positions (2 and 3) is Present —
position 2 is Correct — so "exactly one Present and one Absent among the
two e-positions" fails. -/
theorem claim_C3_counterexample :
    mark_guess "sheep".toList "spent".toList = some ['G', 'N', 'G', 'N', 'Y'] ∧
    ¬((['G', 'N', 'G', 'N', 'Y'] : List Char).get? 2 = some 'Y' ∨
      (['G', 'N', 'G', 'N', 'Y'] : List Char).get? 3 = some 'Y') := by decide

/-- C3 (amended): `mark_guess "sheep" "spent"` marks the first 's' Correct,
and among the two 'e'-positions of "sheep" exactly one is matched (position
2, Correct, aligned with the single 'e' of "spent") and the other Absent:
the two 'e's are not both counted against the single 'e' in "spent". -/
theorem claim_C3_amended :
    mark_guess "sheep".toList "spent".toList = some ['G', 'N', 'G', 'N', 'Y'] ∧
    (['G', 'N', 'G', 'N', 'Y'] : List Char).get? 0 = some 'G' ∧
    (['G', 'N', 'G', 'N', 'Y'] : List Char).get? 2 = some 'G' ∧
    (['G', 'N', 'G', 'N', 'Y'] : List Char).get? 3 = some 'N' := by decide

/-! ### C4: determinism and uniqueness of the mark -/

/-- Counterexample for C4: for the equal-length alphabetic pair guess
"wwwbc", answer "dewwx" the code's own consistency filter leaves two marks
(the assert on line 223 explicitly allows this), so there is not "exactly
one Mark with no ambiguity to resolve"; line 225 then arbitrarily keeps the
first in Python set iteration order. -/
theorem claim_C4_counterexample :
    only_options "wwwbc".toList "dewwx".toList =
      [['Y', 'N', 'G', 'N', 'N'], ['N', 'Y', 'G', 'N', 'N']] ∧
    (only_options "wwwbc".toList "dewwx".toList).length = 2 := by decide

/-- C4 (amended): in this embedding `mark_guess` is a function, hence any
two evaluations at the same pair agree; and whenever the consistency filter
leaves exactly one candidate mark, that unique consistent mark is the one
returned — but uniqueness does not hold for every pair. -/
theorem claim_C4_amended (g a : List Char) :
    (∀ m₁ m₂, mark_guess g a = some m₁ → mark_guess g a = some m₂ → m₁ = m₂) ∧
    ((only_options g a).length = 1 → ∀ m, m ∈ only_options g a → mark_guess g a = some m) := by
  constructor
  · intro m₁ m₂ h₁ h₂
    rw [h₁] at h₂
    exact Option.some_injective _ h₂
  · intro hlen m hm
    obtain ⟨x, hx⟩ := List.length_eq_one.1 hlen
    rw [mark_guess]
    simp only [hx] at hm ⊢
    rw [if_pos (Or.inl (by simp))]
    rcases List.mem_singleton.1 hm with rfl
    rfl

/-- Witness for C4 at the pair ("crate", "crate"), whose consistency filter
leaves the single mark "GGGGG". -/
theorem claim_C4_witness :
    mark_guess "crate".toList "crate".toList = some ['G', 'G', 'G', 'G', 'G'] :=
  (claim_C4_amended "crate".toList "crate".toList).2 (by decide) _ (by decide)

/-! ### C9: input validation of the mark oracle -/

/-- Counterexample for C9: `mark_guess` silently computes a mark for the
length-mismatched pair ("aroses", "crate") instead of failing — there is no
InvalidInputError anywhere in the code. -/
theorem claim_C9_counterexample :
    "aroses".toList.length ≠ "crate".toList.length ∧
    mark_guess "aroses".toList "crate".toList = some ['Y', 'G', 'N', 'N', 'G'] := by decide

/-- C9 (amended): `mark_guess` performs no input validation: it silently
computes marks both for a length-mismatched pair and for a guess containing
a character outside the alphabet; its only failure mode is the internal
assert when the number of consistent marks is not 1 or 2 (e.g. guess "aaa"
against answer "aaaaa"), which is a generic AssertionError, not an
InvalidInputError. -/
theorem claim_C9_amended :
    (mark_guess "aroses".toList "crate".toList).isSome = true ∧
    ('3' ∉ CHARS_LIST ∧ (mark_guess "aros3".toList "crate".toList).isSome = true) ∧
    mark_guess "aaa".toList "aaaaa".toList = none := by decide

/-! ### Structural facts about marks produced by `mark_guess` -/

/-- Characterisation of the enumeration of candidate marks. -/
theorem mem_markCombos : ∀ (n : Nat) (m : List Char),
    m ∈ markCombos n ↔ m.length = n ∧ ∀ x ∈ m, x ∈ RESULTS_LIST := by
  intro n
  induction n with
  | zero =>
    intro m
    simp only [markCombos, List.mem_singleton]
    constructor
    · rintro rfl
      exact ⟨rfl, by simp⟩
    · rintro ⟨h, _⟩
      exact List.length_eq_zero.1 h
  | succ n ih =>
    intro m
    simp only [markCombos, List.mem_flatMap, List.mem_map]
    constructor
    · rintro ⟨c, hc, t, ht, rfl⟩
      obtain ⟨hlen, hall⟩ := (ih t).1 ht
      refine ⟨by simp [hlen], ?_⟩
      intro x hx
      rcases List.mem_cons.1 hx with rfl | hx
      · exact hc
      · exact hall x hx
    · rintro ⟨hlen, hall⟩
      cases m with
      | nil => simp at hlen
      | cons c t =>
        exact ⟨c, hall c (List.mem_cons_self c t),
          t, (ih t).2 ⟨by simpa using hlen, fun x hx => hall x (List.mem_cons_of_mem c hx)⟩, rfl⟩

/-- Unpacking membership in `only_options`: the mark is one of the 3^5
combinations, respects the preliminary mark position-wise, and realises the
min-count equation for every character common to guess and answer. -/
theorem mem_only_options {g a m : List Char} (h : m ∈ only_options g a) :
    m ∈ markCombos WORD_LENGTH ∧
    (∀ i p mi, (prelim_mark g a).get? i = some p → m.get? i = some mi →
      ((p = '_' ∧ mi ≠ 'G') ∨ p = mi)) ∧
    (∀ c, c ∈ g → c ∈ a → yg_count g m c = min (g.count c) (a.count c)) := by
  unfold only_options prefilt_marks at h
  obtain ⟨h1, h2⟩ := List.mem_filter.1 h
  obtain ⟨h0, hpre⟩ := List.mem_filter.1 h1
  refine ⟨h0, ?_, ?_⟩
  · intro i p mi hp hmi
    have hcond := (all_zip_iff _ _ _).1 hpre i p mi hp hmi
    simpa using hcond
  · intro c hcg hca
    have hc : c ∈ overlaps g a :=
      List.mem_filter.2 ⟨List.mem_dedup.2 hcg, by simpa using hca⟩
    have hcond := List.all_eq_true.1 h2 c hc
    simp only [beq_iff_eq] at hcond
    exact hcond.symm

/-- The length and alphabet of a consistent mark. -/
theorem only_options_length {g a m : List Char} (h : m ∈ only_options g a) :
    m.length = WORD_LENGTH ∧ ∀ x ∈ m, x ∈ RESULTS_LIST :=
  (mem_markCombos _ m).1 (mem_only_options h).1

/-- The value of the preliminary mark at a position. -/
theorem prelim_mark_get? {g a : List Char} {i : Nat} {gi ai : Char}
    (hg : g.get? i = some gi) (ha : a.get? i = some ai) :
    (prelim_mark g a).get? i =
      some (if gi = ai then 'G' else if gi ∉ a then 'N' else '_') := by
  unfold prelim_mark
  have hz := (List.get?_zip_eq_some g a (gi, ai) i).2 ⟨hg, ha⟩
  rw [List.get?_map, hz]
  rfl

/-- A consistent mark reads Correct at a position iff guess and answer agree
there. -/
theorem mark_G_iff {g a m : List Char} (h : m ∈ only_options g a) {i : Nat} {gi ai mi : Char}
    (hg : g.get? i = some gi) (ha : a.get? i = some ai) (hm : m.get? i = some mi) :
    mi = 'G' ↔ gi = ai := by
  obtain ⟨_, hpre, _⟩ := mem_only_options h
  have hp := prelim_mark_get? hg ha
  by_cases heq : gi = ai
  · refine ⟨fun _ => heq, fun _ => ?_⟩
    rw [if_pos heq] at hp
    rcases hpre i 'G' mi hp hm with ⟨h1, _⟩ | h2
    · exact absurd h1 (by decide)
    · exact h2.symm
  · refine ⟨fun hGmi => ?_, fun h' => absurd h' heq⟩
    rw [if_neg heq] at hp
    by_cases hnotm : gi ∉ a
    · rw [if_pos hnotm] at hp
      rcases hpre i 'N' mi hp hm with ⟨h1, _⟩ | h2
      · exact absurd h1 (by decide)
      · rw [hGmi] at h2
        exact absurd h2 (by decide)
    · rw [if_neg hnotm] at hp
      rcases hpre i '_' mi hp hm with ⟨_, h2⟩ | h2
      · exact absurd hGmi h2
      · rw [hGmi] at h2
        exact absurd h2 (by decide)

/-- A consistent mark reads Absent wherever the guessed character does not
occur in the answer at all. -/
theorem mark_N_of_not_mem {g a m : List Char} (h : m ∈ only_options g a) {i : Nat}
    {gi ai mi : Char} (hg : g.get? i = some gi) (ha : a.get? i = some ai)
    (hm : m.get? i = some mi) (hnot : gi ∉ a) : mi = 'N' := by
  have heq : gi ≠ ai := fun he => hnot (he ▸ List.get?_mem ha)
  obtain ⟨_, hpre, _⟩ := mem_only_options h
  have hp := prelim_mark_get? hg ha
  rw [if_neg heq, if_pos hnot] at hp
  rcases hpre i 'N' mi hp hm with ⟨h1, _⟩ | h2
  · exact absurd h1 (by decide)
  · exact h2.symm

/-- The mark returned by `mark_guess` is one of the consistent options. -/
theorem mark_guess_mem {g a m : List Char} (h : mark_guess g a = some m) :
    m ∈ only_options g a := by
  simp only [mark_guess] at h
  by_cases hc : (only_options g a).length = 1 ∨ (only_options g a).length = 2
  · rw [if_pos hc] at h
    exact head?_mem_self h
  · rw [if_neg hc] at h
    exact absurd h (by simp)

/-- Zipping a list with itself duplicates each element. -/
theorem zip_self {α : Type} : ∀ (l : List α), l.zip l = l.map (fun x => (x, x))
  | [] => rfl
  | a :: l => by rw [List.zip_cons_cons, zip_self l, List.map_cons]

/-- Zipping a list with an equally long constant list pairs every element
with the constant. -/
theorem zip_replicate {α β : Type} (d : β) :
    ∀ (l : List α) (n : Nat), l.length = n →
      l.zip (List.replicate n d) = l.map (fun x => (x, d))
  | [], _, h => by simp
  | a :: l, n + 1, h => by
    rw [List.replicate_succ, List.zip_cons_cons, zip_replicate d l n (by simpa using h),
      List.map_cons]
  | a :: l, 0, h => by simp at h

/-- Marking a word against itself leaves exactly one consistent option: the
all-Correct mark. -/
theorem only_options_self {a : List Char} (ha5 : a.length = WORD_LENGTH) :
    only_options a a = [List.replicate WORD_LENGTH 'G'] := by
  have hprelim : prelim_mark a a = List.replicate WORD_LENGTH 'G' := by
    unfold prelim_mark
    rw [zip_self, List.map_map]
    have hfun : ((fun ga : Char × Char => if ga.1 = ga.2 then 'G' else if ga.1 ∉ a then 'N' else '_') ∘
        (fun x => (x, x))) = fun _ => 'G' := funext fun x => by simp
    rw [hfun, List.map_const', ha5]
  have h1 : prefilt_marks a a = [List.replicate WORD_LENGTH 'G'] := by
    unfold prefilt_marks
    rw [hprelim]
    decide
  have hyg : ∀ c, yg_count a (List.replicate WORD_LENGTH 'G') c = a.count c := by
    intro c
    unfold yg_count
    rw [zip_replicate 'G' a WORD_LENGTH ha5, List.countP_map, List.count_eq_countP]
    refine List.countP_congr fun x _ => ?_
    simp [Function.comp]
  unfold only_options
  rw [h1]
  have hpred : ((overlaps a a).all
      (fun c => min (a.count c) (a.count c) == yg_count a (List.replicate WORD_LENGTH 'G') c)) =
      true := by
    rw [List.all_eq_true]
    intro c _
    rw [hyg c, Nat.min_self]
    exact beq_self_eq_true _
  rw [List.filter_cons, if_pos hpred, List.filter_nil]

/-! ### Soundness of the derived count constraints for the true answer -/

/-- A character not occurring in the guess has no marked positions. -/
theorem charMarkCount_zero_of_not_mem {g m : List Char} {c : Char} (hcg : c ∉ g) (sym : Char) :
    charMarkCount g m c sym = 0 := by
  unfold charMarkCount
  rw [List.countP_eq_zero]
  intro pr hpr hpred
  simp only [Bool.and_eq_true, beq_iff_eq] at hpred
  exact hcg (hpred.1 ▸ (List.of_mem_zip hpr).1)

/-- Over a consistent mark, the positions of `c` split into Correct, Present
and Absent ones. -/
theorem charMarkCount_partition {g a m : List Char} (h : m ∈ only_options g a) (c : Char) :
    (g.zip m).countP (fun p => p.1 == c) =
      charMarkCount g m c 'G' + charMarkCount g m c 'Y' + charMarkCount g m c 'N' := by
  have hmem := (only_options_length h).2
  have hcong : ∀ pr ∈ g.zip m, ((pr : Char × Char).1 == c) = true ↔
      ((pr.1 == c && pr.2 == 'G') ||
        ((pr.1 == c && pr.2 == 'Y') || (pr.1 == c && pr.2 == 'N'))) = true := by
    intro pr hpr
    have h2 := hmem pr.2 (List.of_mem_zip hpr).2
    simp only [RESULTS_LIST, List.mem_cons, List.not_mem_nil, or_false] at h2
    constructor
    · intro h1
      rcases h2 with h2 | h2 | h2 <;> simp [h1, h2]
    · intro h1
      simp only [Bool.or_eq_true, Bool.and_eq_true] at h1
      rcases h1 with ⟨h1, _⟩ | ⟨h1, _⟩ | ⟨h1, _⟩ <;> exact h1
  rw [List.countP_congr hcong]
  rw [countP_or_disjoint]
  · rw [countP_or_disjoint]
    · unfold charMarkCount
      omega
    · intro pr _ hboth
      simp only [Bool.and_eq_true, beq_iff_eq] at hboth
      exact absurd (hboth.1.2.symm.trans hboth.2.2) (by decide)
  · intro pr _ hboth
    simp only [Bool.or_eq_true, Bool.and_eq_true, beq_iff_eq] at hboth
    rcases hboth.2 with h2 | h2
    · exact absurd (hboth.1.2.symm.trans h2.2) (by decide)
    · exact absurd (hboth.1.2.symm.trans h2.2) (by decide)

/-- The Y-or-G count of line 221 is the sum of the Present and Correct
counts. -/
theorem yg_count_eq (g m : List Char) (c : Char) :
    yg_count g m c = charMarkCount g m c 'Y' + charMarkCount g m c 'G' := by
  unfold yg_count charMarkCount
  rw [← countP_or_disjoint]
  · refine List.countP_congr fun x _ => ?_
    rw [Bool.and_or_distrib_left]
  · intro pr _ hboth
    simp only [Bool.and_eq_true, beq_iff_eq] at hboth
    exact absurd (hboth.1.2.symm.trans hboth.2.2) (by decide)

/-- Positions of `c` within the zip are bounded by `c`'s count in the whole
guess. -/
theorem countP_c_zip_le (g m : List Char) (c : Char) :
    (g.zip m).countP (fun p => p.1 == c) ≤ g.count c := by
  rw [List.count_eq_countP]
  exact countP_zip_le_left g m (· == c)

/-- The answer's own count of any character satisfies the count constraint
derived from any consistent mark of any guess against it. -/
theorem count_constraint_sound {g a m : List Char} (h : m ∈ only_options g a)
    (ha5 : a.length = WORD_LENGTH) (c : Char) :
    a.count c ∈ calc_possible_counts (charMarkCount g m c 'G') (charMarkCount g m c 'Y')
      (charMarkCount g m c 'N') := by
  have hca5 : a.count c ≤ WORD_LENGTH := ha5 ▸ List.count_le_length c a
  by_cases hcg : c ∈ g
  · by_cases hca : c ∈ a
    · have hyg := (mem_only_options h).2.2 c hcg hca
      have hygsum := yg_count_eq g m c
      have hZ := charMarkCount_partition h c
      have hZle := countP_c_zip_le g m c
      by_cases hN : charMarkCount g m c 'N' = 0
      · rw [calc_possible_counts, if_pos hN]
        simp only [NUMCHARS_SET, Finset.mem_sdiff, Finset.mem_range]
        have hmin : min (g.count c) (a.count c) ≤ a.count c := Nat.min_le_right _ _
        omega
      · rw [calc_possible_counts, if_neg hN, Finset.mem_singleton]
        rcases Nat.le_total (g.count c) (a.count c) with hle | hle
        · rw [Nat.min_eq_left hle] at hyg
          omega
        · rw [Nat.min_eq_right hle] at hyg
          omega
    · have hGY : ∀ sym, sym ≠ 'N' → charMarkCount g m c sym = 0 := by
        intro sym hsym
        unfold charMarkCount
        rw [List.countP_eq_zero]
        intro pr hpr hpred
        simp only [Bool.and_eq_true, beq_iff_eq] at hpred
        obtain ⟨i, hi⟩ := List.mem_iff_get?.1 hpr
        obtain ⟨hgi, hmi⟩ := (List.get?_zip_eq_some _ _ _ _).1 hi
        obtain ⟨hlt, _⟩ := List.get?_eq_some.1 hmi
        have hlt5 : i < a.length := by
          rw [ha5, ← (only_options_length h).1]
          exact hlt
        obtain ⟨ai, hai⟩ : ∃ ai, a.get? i = some ai :=
          ⟨a.get ⟨i, hlt5⟩, List.get?_eq_get hlt5⟩
        have hmN : pr.2 = 'N' := mark_N_of_not_mem h hgi hai hmi (hpred.1 ▸ hca)
        exact hsym (hpred.2 ▸ hmN)
      have hG := hGY 'G' (by decide)
      have hY := hGY 'Y' (by decide)
      have hca0 : a.count c = 0 := List.count_eq_zero.2 hca
      rw [calc_possible_counts]
      by_cases hN : charMarkCount g m c 'N' = 0
      · rw [if_pos hN]
        simp only [NUMCHARS_SET, Finset.mem_sdiff, Finset.mem_range]
        omega
      · rw [if_neg hN, Finset.mem_singleton]
        omega
  · have hG := charMarkCount_zero_of_not_mem (m := m) hcg 'G'
    have hY := charMarkCount_zero_of_not_mem (m := m) hcg 'Y'
    have hN := charMarkCount_zero_of_not_mem (m := m) hcg 'N'
    rw [calc_possible_counts, if_pos hN]
    simp only [NUMCHARS_SET, Finset.mem_sdiff, Finset.mem_range]
    omega

/-! ### Soundness of the derived position constraints for the true answer -/

/-- Every key of the position dict is below the word length when all guesses
have the word length. -/
theorem posKeys_lt {results : List (List Char × List Char)}
    (hlen : ∀ r ∈ results, r.1.length = WORD_LENGTH) :
    ∀ i ∈ posKeys results, i < WORD_LENGTH := by
  intro i hi
  unfold posKeys at hi
  rw [List.mem_dedup, List.mem_flatten] at hi
  obtain ⟨l, hl, hil⟩ := hi
  obtain ⟨r, hr, rfl⟩ := List.mem_map.1 hl
  rw [List.mem_range] at hil
  exact hlen r hr ▸ hil

/-- A position of a recorded guess is a key of the position dict. -/
theorem mem_posKeys {results : List (List Char × List Char)} {r : List Char × List Char}
    (hr : r ∈ results) {i : Nat} (hi : i < r.1.length) : i ∈ posKeys results := by
  unfold posKeys
  rw [List.mem_dedup, List.mem_flatten]
  exact ⟨List.range r.1.length, List.mem_map.2 ⟨r, hr, rfl⟩, List.mem_range.2 hi⟩

/-- A character a recorded guess puts at position `i` occurs in the position
table. -/
theorem mem_charsAtPos {results : List (List Char × List Char)} {r : List Char × List Char}
    (hr : r ∈ results) {i : Nat} {c : Char} (hc : r.1.get? i = some c) :
    c ∈ charsAtPos results i := by
  unfold charsAtPos
  rw [List.mem_dedup, List.mem_filterMap]
  exact ⟨r, hr, hc⟩

/-- The answer's character at position `i` satisfies the position constraint
derived from consistent marks of arbitrary guesses against it. -/
theorem position_constraint_sound {a : List Char} {results : List (List Char × List Char)}
    (ha5 : a.length = WORD_LENGTH) (haA : ∀ ch ∈ a, ch ∈ CHARS_LIST)
    (hres : ∀ r ∈ results, r.2 ∈ only_options r.1 a)
    {i : Nat} {ai : Char} (hai : a.get? i = some ai) :
    ai ∈ positionCharsSet results i := by
  unfold positionCharsSet
  rw [mem_foldl_inter]
  have haiC : ai ∈ CHARS_SET := by
    unfold CHARS_SET
    exact List.mem_toFinset.2 (haA ai (List.get?_mem hai))
  refine ⟨haiC, ?_⟩
  intro s hs
  obtain ⟨c, hcmem, rfl⟩ := List.mem_map.1 hs
  have hknow : ∀ r ∈ results, r.1.get? i = some c →
      ∃ mi, r.2.get? i = some mi ∧ mi ∈ RESULTS_LIST ∧ (mi = 'G' ↔ c = ai) := by
    intro r hr hgi
    have hoo := hres r hr
    obtain ⟨hmlen, hmall⟩ := only_options_length hoo
    obtain ⟨hia, -⟩ := List.get?_eq_some.1 hai
    have him : i < r.2.length := by
      rw [hmlen, ← ha5]
      exact hia
    obtain ⟨mi, hmi⟩ : ∃ mi, r.2.get? i = some mi := ⟨r.2.get ⟨i, him⟩, List.get?_eq_get him⟩
    exact ⟨mi, hmi, hmall mi (List.get?_mem hmi), mark_G_iff hoo hgi hai hmi⟩
  unfold charsAtPos at hcmem
  rw [List.mem_dedup, List.mem_filterMap] at hcmem
  obtain ⟨r, hr, hgi⟩ := hcmem
  by_cases hcai : c = ai
  · subst hcai
    have hpos : 0 < posMarkCount results i c 'G' := by
      rw [posMarkCount, List.countP_pos_iff]
      obtain ⟨mi, hmi, -, hiff⟩ := hknow r hr hgi
      have hmiG : mi = 'G' := hiff.2 rfl
      refine ⟨r, hr, ?_⟩
      subst hmiG
      rw [hgi, hmi]
      simp
    rw [calc_allowed_chars, if_pos hpos]
    exact Finset.mem_singleton_self c
  · have hG0 : posMarkCount results i c 'G' = 0 := by
      rw [posMarkCount, List.countP_eq_zero]
      intro r' hr' hpred
      simp only [Bool.and_eq_true, beq_iff_eq] at hpred
      obtain ⟨mi, hmi, -, hiff⟩ := hknow r' hr' hpred.1
      have hmiG : mi = 'G' := Option.some_injective _ (hmi.symm.trans hpred.2)
      exact hcai (hiff.1 hmiG)
    have hYN : 0 < posMarkCount results i c 'Y' + posMarkCount results i c 'N' := by
      obtain ⟨mi, hmi, hGYN, hiff⟩ := hknow r hr hgi
      have hmiNG : mi ≠ 'G' := fun hG => hcai (hiff.1 hG)
      simp only [RESULTS_LIST, List.mem_cons, List.not_mem_nil, or_false] at hGYN
      rcases hGYN with rfl | rfl | rfl
      · exact absurd rfl hmiNG
      · have hp : 0 < posMarkCount results i c 'Y' := by
          rw [posMarkCount, List.countP_pos_iff]
          refine ⟨r, hr, ?_⟩
          rw [hgi, hmi]
          simp
        omega
      · have hp : 0 < posMarkCount results i c 'N' := by
          rw [posMarkCount, List.countP_pos_iff]
          refine ⟨r, hr, ?_⟩
          rw [hgi, hmi]
          simp
        omega
    rw [calc_allowed_chars, if_neg (by omega), if_pos hYN]
    rw [Finset.mem_sdiff, Finset.mem_singleton]
    exact ⟨haiC, fun he => hcai he.symm⟩

/-! ### The answer passes the full filter -/

/-- When `get_allowed_words` succeeds, its asserts held. -/
theorem get_allowed_ok {words S : Finset (List Char)} {results : List (List Char × List Char)}
    (h : get_allowed_words words results = some S) : guess_results_ok results = true := by
  by_cases hok : guess_results_ok results = true
  · exact hok
  · rw [get_allowed_words, if_neg hok] at h
    exact absurd h (by simp)

/-- The successful filter result is the filtered set. -/
theorem get_allowed_eq {words S : Finset (List Char)} {results : List (List Char × List Char)}
    (h : get_allowed_words words results = some S) :
    S = words.filter
      (fun w => word_allowed w (calc_charcounts results) (calc_position_chars results) = true) := by
  have hok := get_allowed_ok h
  rw [get_allowed_words, if_pos hok, Option.some.injEq] at h
  exact h.symm

/-- Filtering only shrinks the candidate set. -/
theorem get_allowed_subset {words S : Finset (List Char)} {results : List (List Char × List Char)}
    (h : get_allowed_words words results = some S) : S ⊆ words := by
  rw [get_allowed_eq h]
  exact Finset.filter_subset _ _

/-- The asserts force every recorded guess to have the word length. -/
theorem entries_length_of_ok {results : List (List Char × List Char)}
    (h : guess_results_ok results = true) : ∀ r ∈ results, r.1.length = WORD_LENGTH := by
  unfold guess_results_ok at h
  rw [Bool.and_eq_true] at h
  intro r hr
  have he := List.all_eq_true.1 h.2 r hr
  unfold entry_ok at he
  rw [Bool.and_eq_true] at he
  have he1 := he.1
  rw [Bool.and_eq_true] at he1
  have := he1.2
  simpa using this

/-- The true answer always satisfies the constraints induced by consistent
marks of guesses against it, so it passes the filter. -/
theorem answer_allowed {a : List Char} {results : List (List Char × List Char)}
    (ha5 : a.length = WORD_LENGTH) (haA : ∀ ch ∈ a, ch ∈ CHARS_LIST)
    (hres : ∀ r ∈ results, r.2 ∈ only_options r.1 a)
    (hlen : ∀ r ∈ results, r.1.length = WORD_LENGTH) :
    word_allowed a (calc_charcounts results) (calc_position_chars results) = true := by
  unfold word_allowed
  rw [Bool.and_eq_true]
  constructor
  · rw [List.all_eq_true]
    intro p hp
    obtain ⟨c, -, rfl⟩ := List.mem_map.1 hp
    rw [decide_eq_true_eq]
    unfold charcountSet
    rw [mem_foldl_inter]
    have hcle : a.count c ≤ WORD_LENGTH := ha5 ▸ List.count_le_length c a
    refine ⟨by simp only [NUMCHARS_SET, Finset.mem_range]; omega, ?_⟩
    intro s hs
    obtain ⟨r, hr, rfl⟩ := List.mem_map.1 hs
    exact count_constraint_sound (hres r (List.mem_filter.1 hr).1) ha5 c
  · rw [List.all_eq_true]
    intro p hp
    obtain ⟨i, hiK, rfl⟩ := List.mem_map.1 hp
    have hi5 : i < WORD_LENGTH := posKeys_lt hlen i hiK
    have hia : i < a.length := ha5 ▸ hi5
    obtain ⟨ai, hai⟩ : ∃ ai, a.get? i = some ai := ⟨a.get ⟨i, hia⟩, List.get?_eq_get hia⟩
    simp only [hai]
    rw [decide_eq_true_eq]
    exact position_constraint_sound ha5 haA hres hai

/-- The answer stays in the filtered candidate set. -/
theorem answer_in_get_allowed {a : List Char} {words S : Finset (List Char)}
    {results : List (List Char × List Char)}
    (h : get_allowed_words words results = some S) (hmem : a ∈ words)
    (ha5 : a.length = WORD_LENGTH) (haA : ∀ ch ∈ a, ch ∈ CHARS_LIST)
    (hres : ∀ r ∈ results, r.2 ∈ only_options r.1 a) : a ∈ S := by
  rw [get_allowed_eq h]
  exact Finset.mem_filter.2
    ⟨hmem, answer_allowed ha5 haA hres (entries_length_of_ok (get_allowed_ok h))⟩

/-! ### Dict update and loop-invariant helpers -/

/-- An entry of the updated dict is an old entry or the new pair. -/
theorem mem_updateResults {results : List (List Char × List Char)} {g m : List Char}
    {r : List Char × List Char} (h : r ∈ updateResults results g m) :
    r ∈ results ∨ r = (g, m) := by
  unfold updateResults at h
  by_cases hany : results.any (fun r => r.1 == g) = true
  · rw [if_pos hany] at h
    obtain ⟨r', hr', hEq⟩ := List.mem_map.1 h
    by_cases hg : (r'.1 == g) = true
    · rw [if_pos hg] at hEq
      exact Or.inr hEq.symm
    · rw [if_neg hg] at hEq
      exact Or.inl (hEq ▸ hr')
  · rw [if_neg hany] at h
    rcases List.mem_append.1 h with h | h
    · exact Or.inl h
    · exact Or.inr (List.mem_singleton.1 h)

/-- The new pair is always an entry of the updated dict. -/
theorem self_mem_updateResults (results : List (List Char × List Char)) (g m : List Char) :
    (g, m) ∈ updateResults results g m := by
  unfold updateResults
  by_cases hany : results.any (fun r => r.1 == g) = true
  · rw [if_pos hany]
    obtain ⟨r, hr, hg⟩ := List.any_eq_true.1 hany
    refine List.mem_map.2 ⟨r, hr, ?_⟩
    rw [if_pos hg]
  · rw [if_neg hany]
    exact List.mem_append.2 (Or.inr (List.mem_singleton.2 rfl))

/-- A member of a list is in its front part or is its last element. -/
theorem mem_dropLast_or_getLast {α : Type} {l : List α} {e : α} (h : e ∈ l) :
    e ∈ l.dropLast ∨ l.getLast? = some e := by
  rcases List.eq_nil_or_concat l with rfl | ⟨l', b, rfl⟩
  · simp at h
  · rw [List.concat_eq_append] at h ⊢
    rw [List.dropLast_concat, List.getLast?_concat]
    rcases List.mem_append.1 h with h | h
    · exact Or.inl h
    · exact Or.inr (congrArg some (List.mem_singleton.1 h).symm)

/-- Guessing the answer itself: the mark in `only_options` is all-Correct,
and the resulting filtered set is contained in `{answer}` (every surviving
word of the word length agrees with the answer at all positions). -/
theorem filtered_subset_answer {a : List Char} {words S : Finset (List Char)}
    {results : List (List Char × List Char)}
    (h : get_allowed_words words results = some S)
    (hmem : (a, List.replicate WORD_LENGTH 'G') ∈ results)
    (ha5 : a.length = WORD_LENGTH)
    (hwords : ∀ w ∈ words, w.length = WORD_LENGTH) : S ⊆ {a} := by
  intro w hw
  rw [get_allowed_eq h, Finset.mem_filter] at hw
  obtain ⟨hwmem, hall⟩ := hw
  have hwlen : w.length = WORD_LENGTH := hwords w hwmem
  have hkey : ∀ i, i < WORD_LENGTH → w.get? i = a.get? i := by
    intro i hi
    have hia : i < a.length := ha5 ▸ hi
    obtain ⟨ai, hai⟩ : ∃ ai, a.get? i = some ai := ⟨a.get ⟨i, hia⟩, List.get?_eq_get hia⟩
    have hiK : i ∈ posKeys results := mem_posKeys hmem (by simpa [ha5] using hi)
    have hpair : (i, positionCharsSet results i) ∈ calc_position_chars results :=
      List.mem_map.2 ⟨i, hiK, rfl⟩
    unfold word_allowed at hall
    rw [Bool.and_eq_true] at hall
    have hcheck := List.all_eq_true.1 hall.2 _ hpair
    cases hwi : w.get? i with
    | none =>
      rw [hwi] at hcheck
      simp at hcheck
    | some ch =>
      rw [hwi] at hcheck
      rw [decide_eq_true_eq] at hcheck
      have hsub : ch ∈ calc_allowed_chars ai (posMarkCount results i ai 'G')
          (posMarkCount results i ai 'Y') (posMarkCount results i ai 'N') := by
        unfold positionCharsSet at hcheck
        rw [mem_foldl_inter] at hcheck
        exact hcheck.2 _ (List.mem_map.2 ⟨ai, mem_charsAtPos hmem hai, rfl⟩)
      have hGpos : 0 < posMarkCount results i ai 'G' := by
        rw [posMarkCount, List.countP_pos_iff]
        refine ⟨(a, List.replicate WORD_LENGTH 'G'), hmem, ?_⟩
        have hGi : (List.replicate WORD_LENGTH 'G').get? i = some 'G' := by
          rw [List.get?_eq_get (by simpa using hi)]
          simp
        show ((a, List.replicate WORD_LENGTH 'G').1.get? i == some ai &&
          (a, List.replicate WORD_LENGTH 'G').2.get? i == some 'G') = true
        rw [show (a, List.replicate WORD_LENGTH 'G').1 = a from rfl,
          show (a, List.replicate WORD_LENGTH 'G').2 = List.replicate WORD_LENGTH 'G' from rfl,
          hai, hGi]
        simp
      rw [calc_allowed_chars, if_pos hGpos, Finset.mem_singleton] at hsub
      rw [hsub]
      exact hai.symm
  have hwa : w = a := by
    apply List.ext_get?
    intro n
    by_cases hn : n < WORD_LENGTH
    · exact hkey n hn
    · have h1 : w.get? n = none := List.get?_eq_none.2 (by omega)
      have h2 : a.get? n = none := List.get?_eq_none.2 (by omega)
      rw [h1, h2]
  exact Finset.mem_singleton.2 hwa

end Wordle

namespace Wordle

/-- Loop invariant for C8: only the final recorded entry of a run can carry
an empty candidate set — the loop stops as soon as the set empties. -/
theorem go_empty_only_last (answer : List Char) (sel : Finset (List Char) → List Char) :
    ∀ (fuel : Nat) (g : Option (List Char)) (words : Finset (List Char))
      (results : List (List Char × List Char))
      (datalist trace : List (List Char × List Char × Finset (List Char))),
    (∀ e ∈ datalist.dropLast, e.2.2.Nonempty) →
    (∀ e, datalist.getLast? = some e → (e.2.2.Nonempty ∨ g = none)) →
    simulate_go answer sel fuel g words results datalist = Except.ok trace →
    ∀ e ∈ trace.dropLast, e.2.2.Nonempty := by
  intro fuel
  induction fuel with
  | zero =>
    intro g words results datalist trace hdl hlast hrun
    cases g with
    | none =>
      simp only [simulate_go] at hrun
      cases hrun
      exact hdl
    | some guess =>
      simp only [simulate_go] at hrun
      by_cases hg : guess = []
      · rw [if_pos hg] at hrun
        cases hrun
        exact hdl
      · rw [if_neg hg] at hrun
        exact Except.noConfusion hrun
  | succ fuel ih =>
    intro g words results datalist trace hdl hlast hrun
    cases g with
    | none =>
      simp only [simulate_go] at hrun
      cases hrun
      exact hdl
    | some guess =>
      by_cases hg : guess = []
      · subst hg
        simp only [simulate_go, if_pos rfl] at hrun
        cases hrun
        exact hdl
      · obtain ⟨c, cs, rfl⟩ : ∃ c cs, guess = c :: cs := by
          cases guess with
          | nil => exact absurd rfl hg
          | cons c cs => exact ⟨c, cs, rfl⟩
        rw [simulate_go, if_neg hg] at hrun
        cases hmark : mark_guess (c :: cs) answer with
        | none =>
          simp only [hmark] at hrun
          exact Except.noConfusion hrun
        | some mark =>
          simp only [hmark] at hrun
          cases hga : get_allowed_words words (updateResults results (c :: cs) mark) with
          | none =>
            simp only [hga] at hrun
            exact Except.noConfusion hrun
          | some filtered =>
            simp only [hga] at hrun
            refine ih _ _ _ _ _ ?_ ?_ hrun
            · intro e he
              rw [List.dropLast_concat] at he
              rcases mem_dropLast_or_getLast he with h1 | h1
              · exact hdl e h1
              · rcases hlast e h1 with h2 | h2
                · exact h2
                · simp at h2
            · intro e he
              rw [List.getLast?_concat] at he
              cases he
              by_cases hne : (filtered \ {c :: cs}).Nonempty
              · exact Or.inl hne
              · rw [if_neg hne]
                exact Or.inr rfl

theorem go_answer_invariant (answer : List Char) (sel : Finset (List Char) → List Char)
    (ha5 : answer.length = WORD_LENGTH) (haA : ∀ ch ∈ answer, ch ∈ CHARS_LIST) :
    ∀ (fuel : Nat) (g : Option (List Char)) (words : Finset (List Char))
      (results : List (List Char × List Char))
      (datalist trace : List (List Char × List Char × Finset (List Char))),
    (∀ r ∈ results, r.2 ∈ only_options r.1 answer) →
    (∀ w ∈ words, w.length = WORD_LENGTH) →
    (∀ e ∈ datalist, e.1 ≠ answer → answer ∈ e.2.2) →
    (∀ e ∈ datalist.dropLast, answer ∈ e.2.2) →
    (∀ e, datalist.getLast? = some e → (answer ∈ e.2.2 ∨ g = none)) →
    (answer ∈ words ∨ g = none) →
    simulate_go answer sel fuel g words results datalist = Except.ok trace →
    (∀ e ∈ trace, e.1 ≠ answer → answer ∈ e.2.2) ∧ (∀ e ∈ trace.dropLast, answer ∈ e.2.2) := by
  intro fuel
  induction fuel with
  | zero =>
    intro g words results datalist trace hres hwords hdl1 hdl2 hlast hcur hrun
    cases g with
    | none =>
      simp only [simulate_go] at hrun
      cases hrun
      exact ⟨hdl1, hdl2⟩
    | some guess =>
      simp only [simulate_go] at hrun
      by_cases hg : guess = []
      · rw [if_pos hg] at hrun
        cases hrun
        exact ⟨hdl1, hdl2⟩
      · rw [if_neg hg] at hrun
        exact Except.noConfusion hrun
  | succ fuel ih =>
    intro g words results datalist trace hres hwords hdl1 hdl2 hlast hcur hrun
    cases g with
    | none =>
      simp only [simulate_go] at hrun
      cases hrun
      exact ⟨hdl1, hdl2⟩
    | some guess =>
      by_cases hg : guess = []
      · subst hg
        simp only [simulate_go, if_pos rfl] at hrun
        cases hrun
        exact ⟨hdl1, hdl2⟩
      · obtain ⟨c, cs, rfl⟩ : ∃ c cs, guess = c :: cs := by
          cases guess with
          | nil => exact absurd rfl hg
          | cons c cs => exact ⟨c, cs, rfl⟩
        rw [simulate_go, if_neg hg] at hrun
        cases hmark : mark_guess (c :: cs) answer with
        | none =>
          simp only [hmark] at hrun
          exact Except.noConfusion hrun
        | some mark =>
          simp only [hmark] at hrun
          cases hga : get_allowed_words words (updateResults results (c :: cs) mark) with
          | none =>
            simp only [hga] at hrun
            exact Except.noConfusion hrun
          | some filtered =>
            simp only [hga] at hrun
            have hresults2 : ∀ r ∈ updateResults results (c :: cs) mark,
                r.2 ∈ only_options r.1 answer := by
              intro r hr
              rcases mem_updateResults hr with h | h
              · exact hres r h
              · rw [h]
                exact mark_guess_mem hmark
            have hsub2 : (filtered \ {c :: cs}) ⊆ words := fun w hw =>
              get_allowed_subset hga (Finset.mem_sdiff.1 hw).1
            have hwords2 : ∀ w ∈ filtered \ {c :: cs}, w.length = WORD_LENGTH := fun w hw =>
              hwords w (hsub2 hw)
            have hansmem : answer ∈ words := by
              rcases hcur with h | h
              · exact h
              · exact Option.noConfusion h
            have hdlall : ∀ e ∈ datalist, answer ∈ e.2.2 := by
              intro e he
              rcases mem_dropLast_or_getLast he with h1 | h1
              · exact hdl2 e h1
              · rcases hlast e h1 with h2 | h2
                · exact h2
                · exact Option.noConfusion h2
            by_cases hga2 : (c :: cs) = answer
            · have hmarkmem := mark_guess_mem hmark
              rw [hga2, only_options_self ha5] at hmarkmem
              have hmark5 : mark = List.replicate WORD_LENGTH 'G' :=
                List.mem_singleton.1 hmarkmem
              have hself : (answer, List.replicate WORD_LENGTH 'G') ∈
                  updateResults results (c :: cs) mark := by
                rw [← hga2, ← hmark5]
                exact self_mem_updateResults results (c :: cs) mark
              have hsubA := filtered_subset_answer hga hself ha5 hwords
              have hempty : filtered \ {c :: cs} = ∅ := by
                rw [Finset.eq_empty_iff_forall_not_mem]
                intro w hw
                rw [Finset.mem_sdiff] at hw
                have hwa := Finset.mem_singleton.1 (hsubA hw.1)
                exact hw.2 (Finset.mem_singleton.2 (hwa.trans hga2.symm))
              rw [hempty] at hrun
              rw [if_neg (by simp)] at hrun
              refine ih none ∅ _ _ _ hresults2 (by simp) ?_ ?_ ?_ (Or.inr rfl) hrun
              · intro e he
                rcases List.mem_append.1 he with h | h
                · exact hdl1 e h
                · intro hne
                  rw [List.mem_singleton.1 h] at hne
                  exact absurd hga2 hne
              · intro e he
                rw [List.dropLast_concat] at he
                exact hdlall e he
              · intro e _
                exact Or.inr rfl
            · have hansf : answer ∈ filtered :=
                answer_in_get_allowed hga hansmem ha5 haA hresults2
              have hans2 : answer ∈ filtered \ {c :: cs} :=
                Finset.mem_sdiff.2 ⟨hansf,
                  fun h => hga2 (Finset.mem_singleton.1 h).symm⟩
              refine ih _ _ _ _ _ hresults2 hwords2 ?_ ?_ ?_ (Or.inl hans2) hrun
              · intro e he
                rcases List.mem_append.1 he with h | h
                · exact hdl1 e h
                · intro _
                  rw [List.mem_singleton.1 h]
                  exact hans2
              · intro e he
                rw [List.dropLast_concat] at he
                exact hdlall e he
              · intro e he
                rw [List.getLast?_concat] at he
                cases he
                exact Or.inl hans2

end Wordle

namespace Wordle

theorem go_fuel_sufficient (answer : List Char) (sel : Finset (List Char) → List Char)
    (hsel : ∀ s : Finset (List Char), s.Nonempty → sel s ∈ s) :
    ∀ (fuel : Nat) (g : Option (List Char)) (words : Finset (List Char))
      (results : List (List Char × List Char))
      (datalist : List (List Char × List Char × Finset (List Char))),
    (words.card < fuel ∨ (words.card ≤ fuel ∧ ∃ w, g = some w ∧ w ∈ words)) →
    simulate_go answer sel fuel g words results datalist ≠ Except.error SimError.outOfFuel := by
  intro fuel
  induction fuel with
  | zero =>
    intro g words results datalist hf
    cases g with
    | none => simp [simulate_go]
    | some guess =>
      by_cases hg : guess = []
      · simp [simulate_go, hg]
      · intro _
        rcases hf with h | ⟨h1, w, hw, hmem⟩
        · omega
        · have hempty : words = ∅ := Finset.card_eq_zero.1 (Nat.le_zero.1 h1)
          rw [hempty] at hmem
          exact absurd hmem (Finset.not_mem_empty w)
  | succ fuel ih =>
    intro g words results datalist hf
    cases g with
    | none => simp [simulate_go]
    | some guess =>
      by_cases hg : guess = []
      · subst hg
        simp [simulate_go]
      · obtain ⟨c, cs, rfl⟩ : ∃ c cs, guess = c :: cs := by
          cases guess with
          | nil => exact absurd rfl hg
          | cons c cs => exact ⟨c, cs, rfl⟩
        rw [simulate_go, if_neg hg]
        cases hmark : mark_guess (c :: cs) answer with
        | none =>
          simp only [hmark]
          exact fun h => SimError.noConfusion (Except.error.inj h)
        | some mark =>
          simp only [hmark]
          cases hga : get_allowed_words words (updateResults results (c :: cs) mark) with
          | none =>
            simp only [hga]
            exact fun h => SimError.noConfusion (Except.error.inj h)
          | some filtered =>
            simp only [hga]
            have hsub2 : filtered \ {c :: cs} ⊆ words := fun w hw =>
              get_allowed_subset hga (Finset.mem_sdiff.1 hw).1
            by_cases hne : (filtered \ {c :: cs}).Nonempty
            · rw [if_pos hne]
              apply ih
              right
              refine ⟨?_, sel (filtered \ {c :: cs}), rfl, hsel _ hne⟩
              rcases hf with h | ⟨h1, w, hw, hmem⟩
              · have := Finset.card_le_card hsub2
                omega
              · have hwc : c :: cs = w := Option.some_injective _ hw
                rw [← hwc] at hmem
                have hsubm : filtered \ {c :: cs} ⊆ words \ {c :: cs} := by
                  intro x hx
                  rw [Finset.mem_sdiff] at hx ⊢
                  exact ⟨get_allowed_subset hga hx.1, hx.2⟩
                have hcard3 := Finset.card_le_card hsubm
                have hcardm : (words \ {c :: cs}).card = words.card - 1 := by
                  rw [Finset.card_sdiff (Finset.singleton_subset_iff.2 hmem)]
                  simp
                have hpos : 0 < words.card := Finset.card_pos.2 ⟨c :: cs, hmem⟩
                omega
            · rw [if_neg hne]
              simp [simulate_go]

theorem go_guesses_nodup (answer : List Char) (sel : Finset (List Char) → List Char)
    (hsel : ∀ s : Finset (List Char), s.Nonempty → sel s ∈ s) :
    ∀ (fuel : Nat) (g : Option (List Char)) (words : Finset (List Char))
      (results : List (List Char × List Char))
      (datalist trace : List (List Char × List Char × Finset (List Char))),
    ((datalist.map (fun e => e.1)).Nodup) →
    (∀ x ∈ datalist.map (fun e => e.1), x ∉ words) →
    (∀ w, g = some w → w ∉ datalist.map (fun e => e.1)) →
    simulate_go answer sel fuel g words results datalist = Except.ok trace →
    (trace.map (fun e => e.1)).Nodup := by
  intro fuel
  induction fuel with
  | zero =>
    intro g words results datalist trace h1 h2 h3 hrun
    cases g with
    | none =>
      simp only [simulate_go] at hrun
      cases hrun
      exact h1
    | some guess =>
      simp only [simulate_go] at hrun
      by_cases hg : guess = []
      · rw [if_pos hg] at hrun
        cases hrun
        exact h1
      · rw [if_neg hg] at hrun
        exact Except.noConfusion hrun
  | succ fuel ih =>
    intro g words results datalist trace h1 h2 h3 hrun
    cases g with
    | none =>
      simp only [simulate_go] at hrun
      cases hrun
      exact h1
    | some guess =>
      by_cases hg : guess = []
      · subst hg
        simp only [simulate_go, if_pos rfl] at hrun
        cases hrun
        exact h1
      · obtain ⟨c, cs, rfl⟩ : ∃ c cs, guess = c :: cs := by
          cases guess with
          | nil => exact absurd rfl hg
          | cons c cs => exact ⟨c, cs, rfl⟩
        rw [simulate_go, if_neg hg] at hrun
        cases hmark : mark_guess (c :: cs) answer with
        | none =>
          simp only [hmark] at hrun
          exact Except.noConfusion hrun
        | some mark =>
          simp only [hmark] at hrun
          cases hga : get_allowed_words words (updateResults results (c :: cs) mark) with
          | none =>
            simp only [hga] at hrun
            exact Except.noConfusion hrun
          | some filtered =>
            simp only [hga] at hrun
            have hsub2 : filtered \ {c :: cs} ⊆ words := fun w hw =>
              get_allowed_subset hga (Finset.mem_sdiff.1 hw).1
            have hmap2 : (datalist ++ [(c :: cs, mark, filtered \ {c :: cs})]).map
                (fun e => e.1) = datalist.map (fun e => e.1) ++ [c :: cs] := by
              rw [List.map_append]
              rfl
            have h2' : ∀ x ∈ (datalist ++ [(c :: cs, mark, filtered \ {c :: cs})]).map
                (fun e => e.1), x ∉ filtered \ {c :: cs} := by
              rw [hmap2]
              intro x hx
              rcases List.mem_append.1 hx with hx | hx
              · exact fun hmem => h2 x hx (hsub2 hmem)
              · rw [List.mem_singleton.1 hx]
                intro hmem
                exact (Finset.mem_sdiff.1 hmem).2 (Finset.mem_singleton_self _)
            refine ih _ _ _ _ _ ?_ h2' ?_ hrun
            · rw [hmap2]
              rw [List.nodup_append]
              exact ⟨h1, List.nodup_singleton _,
                by simpa using fun hmem => h3 (c :: cs) rfl hmem⟩
            · intro w hw
              by_cases hne : (filtered \ {c :: cs}).Nonempty
              · rw [if_pos hne] at hw
                have hwc : sel (filtered \ {c :: cs}) = w := Option.some_injective _ hw
                intro hmem
                exact h2' w hmem (hwc ▸ hsel _ hne)
              · rw [if_neg hne] at hw
                exact Option.noConfusion hw

theorem go_cards_decrease (answer : List Char) (sel : Finset (List Char) → List Char)
    (hsel : ∀ s : Finset (List Char), s.Nonempty → sel s ∈ s) :
    ∀ (fuel : Nat) (g : Option (List Char)) (words : Finset (List Char))
      (results : List (List Char × List Char))
      (datalist trace : List (List Char × List Char × Finset (List Char))),
    (List.Chain' (fun e e' => e'.2.2.card < e.2.2.card) datalist) →
    (∀ e, datalist.getLast? = some e → e.2.2 = words) →
    (datalist ≠ [] → ∀ w, g = some w → w ∈ words) →
    simulate_go answer sel fuel g words results datalist = Except.ok trace →
    List.Chain' (fun e e' => e'.2.2.card < e.2.2.card) trace := by
  intro fuel
  induction fuel with
  | zero =>
    intro g words results datalist trace h1 h2 h3 hrun
    cases g with
    | none =>
      simp only [simulate_go] at hrun
      cases hrun
      exact h1
    | some guess =>
      simp only [simulate_go] at hrun
      by_cases hg : guess = []
      · rw [if_pos hg] at hrun
        cases hrun
        exact h1
      · rw [if_neg hg] at hrun
        exact Except.noConfusion hrun
  | succ fuel ih =>
    intro g words results datalist trace h1 h2 h3 hrun
    cases g with
    | none =>
      simp only [simulate_go] at hrun
      cases hrun
      exact h1
    | some guess =>
      by_cases hg : guess = []
      · subst hg
        simp only [simulate_go, if_pos rfl] at hrun
        cases hrun
        exact h1
      · obtain ⟨c, cs, rfl⟩ : ∃ c cs, guess = c :: cs := by
          cases guess with
          | nil => exact absurd rfl hg
          | cons c cs => exact ⟨c, cs, rfl⟩
        rw [simulate_go, if_neg hg] at hrun
        cases hmark : mark_guess (c :: cs) answer with
        | none =>
          simp only [hmark] at hrun
          exact Except.noConfusion hrun
        | some mark =>
          simp only [hmark] at hrun
          cases hga : get_allowed_words words (updateResults results (c :: cs) mark) with
          | none =>
            simp only [hga] at hrun
            exact Except.noConfusion hrun
          | some filtered =>
            simp only [hga] at hrun
            refine ih _ _ _ _ _ ?_ ?_ ?_ hrun
            · rw [List.chain'_append]
              refine ⟨h1, List.chain'_singleton _, ?_⟩
              intro x hx y hy
              have hxw : x.2.2 = words := h2 x hx
              have hyE : y = (c :: cs, mark, filtered \ {c :: cs}) := by
                have := hy
                simp only [List.head?_cons, Option.mem_def, Option.some.injEq] at this
                exact this.symm
              have hdne : datalist ≠ [] := by
                intro hnil
                rw [hnil] at hx
                exact Option.noConfusion hx
              have hmem : c :: cs ∈ words := h3 hdne (c :: cs) rfl
              have hsubm : filtered \ {c :: cs} ⊆ words \ {c :: cs} := by
                intro z hz
                rw [Finset.mem_sdiff] at hz ⊢
                exact ⟨get_allowed_subset hga hz.1, hz.2⟩
              have hcard3 := Finset.card_le_card hsubm
              have hcardm : (words \ {c :: cs}).card = words.card - 1 := by
                rw [Finset.card_sdiff (Finset.singleton_subset_iff.2 hmem)]
                simp
              have hpos : 0 < words.card := Finset.card_pos.2 ⟨c :: cs, hmem⟩
              rw [hyE, hxw]
              show (filtered \ {c :: cs}).card < words.card
              omega
            · intro e he
              rw [List.getLast?_concat] at he
              cases he
              rfl
            · intro _ w hw
              by_cases hne : (filtered \ {c :: cs}).Nonempty
              · rw [if_pos hne] at hw
                have hwc : sel (filtered \ {c :: cs}) = w := Option.some_injective _ hw
                exact hwc ▸ hsel _ hne
              · rw [if_neg hne] at hw
                exact Option.noConfusion hw

/-! ### C1: soundness — the answer survives its own filtering steps -/

/-- C1: for any answer in the initial word list (of words of the word
length), in any successful simulation run every recorded candidate set
whose guess is not the answer itself still contains the answer; in
particular every non-final candidate set contains it (the only set not
containing it is the final, empty one produced by guessing the answer,
whereupon the run ends). -/
theorem claim_C1_soundness (g0 answer : List Char) (words : Finset (List Char))
    (sel : Finset (List Char) → List Char)
    (trace : List (List Char × List Char × Finset (List Char)))
    (ha5 : answer.length = WORD_LENGTH) (haA : ∀ ch ∈ answer, ch ∈ CHARS_LIST)
    (hmem : answer ∈ words) (hwords : ∀ w ∈ words, w.length = WORD_LENGTH)
    (hrun : simulate_wordle g0 answer words sel = Except.ok trace) :
    (∀ e ∈ trace, e.1 ≠ answer → answer ∈ e.2.2) ∧
    (∀ e ∈ trace.dropLast, answer ∈ e.2.2) := by
  unfold simulate_wordle at hrun
  refine go_answer_invariant answer sel ha5 haA _ _ _ _ _ _
    (by simp) hwords (by simp) (by simp) ?_ (Or.inl hmem) hrun
  intro e he
  simp at he

/-- Witness for C1: the run guessing "arose" then "crate" against answer
"crate" over the word list `{crate, arose}`; after the first filtering step
the answer is still in the candidate set. -/
theorem claim_C1_witness :
    "crate".toList ∈ ({"crate".toList} : Finset (List Char)) :=
  (claim_C1_soundness "arose".toList "crate".toList {"crate".toList, "arose".toList}
      (fun _ => "crate".toList)
      [("arose".toList, ['Y', 'G', 'N', 'N', 'G'], {"crate".toList}),
       ("crate".toList, ['G', 'G', 'G', 'G', 'G'], ∅)]
      (by decide) (by decide) (by decide) (by decide) (by decide)).1
    ("arose".toList, ['Y', 'G', 'N', 'N', 'G'], {"crate".toList}) (by simp) (by decide)

/-! ### C8: behaviour on an empty candidate set -/

/-- Counterexample for C8: a run whose filtering step empties the candidate
set (answer "bbbbb" is not in the word list `{aaaaa}`) terminates normally,
returning the accumulated list whose final entry carries the empty set — no
NoCandidatesError is raised; no such error exists in the code. -/
theorem claim_C8_counterexample :
    simulate_wordle "aaaaa".toList "bbbbb".toList {"aaaaa".toList} (fun _ => []) =
      Except.ok [("aaaaa".toList, ['N', 'N', 'N', 'N', 'N'], (∅ : Finset (List Char)))] := by
  decide

/-- C8 (amended): when a filtering step produces an empty candidate set the
loop stops at once and returns the accumulated results, so an empty
candidate set can only appear as the final recorded entry of a successful
run; no error is raised. -/
theorem claim_C8_no_error_on_empty (g0 answer : List Char) (words : Finset (List Char))
    (sel : Finset (List Char) → List Char)
    (trace : List (List Char × List Char × Finset (List Char)))
    (hrun : simulate_wordle g0 answer words sel = Except.ok trace) :
    ∀ e ∈ trace.dropLast, e.2.2.Nonempty := by
  unfold simulate_wordle at hrun
  refine go_empty_only_last answer sel _ _ _ _ _ _ (by simp) ?_ hrun
  intro e he
  simp at he

/-- Witness for C8 at the two-step run "arose" then "crate" against
"crate": the single non-final entry has a nonempty candidate set. -/
theorem claim_C8_witness : ({"crate".toList} : Finset (List Char)).Nonempty :=
  claim_C8_no_error_on_empty "arose".toList "crate".toList
    {"crate".toList, "arose".toList} (fun _ => "crate".toList)
    [("arose".toList, ['Y', 'G', 'N', 'N', 'G'], {"crate".toList}),
     ("crate".toList, ['G', 'G', 'G', 'G', 'G'], ∅)] (by decide)
    ("arose".toList, ['Y', 'G', 'N', 'N', 'G'], {"crate".toList}) (by decide)

/-! ### C10: termination and pairwise-distinct guesses -/

/-- C10: for every finite word set and every selector returning a member of
the set it is given, the simulation terminates — the fuel `card + 1`, which
mirrors the bound "first iteration may keep the set, each later one removes
its guess", is never exhausted — and on a successful run the guesses are
pairwise distinct and the recorded candidate sets strictly decrease in size
from each iteration to the next. -/
theorem claim_C10_termination (g0 answer : List Char) (words : Finset (List Char))
    (sel : Finset (List Char) → List Char)
    (hsel : ∀ s : Finset (List Char), s.Nonempty → sel s ∈ s) :
    simulate_wordle g0 answer words sel ≠ Except.error SimError.outOfFuel ∧
    ∀ trace, simulate_wordle g0 answer words sel = Except.ok trace →
      ((trace.map (fun e => e.1)).Nodup ∧
        List.Chain' (fun e e' => e'.2.2.card < e.2.2.card) trace) := by
  constructor
  · unfold simulate_wordle
    exact go_fuel_sufficient answer sel hsel _ _ _ _ _ (Or.inl (by omega))
  · intro trace hrun
    unfold simulate_wordle at hrun
    constructor
    · refine go_guesses_nodup answer sel hsel _ _ _ _ _ _ (by simp) (by simp) ?_ hrun
      intro w _
      simp
    · refine go_cards_decrease answer sel hsel _ _ _ _ _ _ List.chain'_nil ?_ ?_ hrun
      · intro e he
        simp at he
      · intro h
        exact absurd rfl h

/-- The selector `selMax` always returns a member of a nonempty set. -/
theorem selMax_mem (s : Finset (List Char)) (h : s.Nonempty) : selMax s ∈ s := by
  unfold selMax
  rw [dif_pos h]
  exact s.max'_mem h

/-- Witness for C10 with the concrete member-returning selector `selMax`. -/
theorem claim_C10_witness :
    simulate_wordle "arose".toList "crate".toList {"crate".toList} selMax ≠
      Except.error SimError.outOfFuel :=
  (claim_C10_termination "arose".toList "crate".toList {"crate".toList} selMax selMax_mem).1

end Wordle
